import Mathlib

/-!
Verification of the file-sorter (task1.py) and the word-frequency
map/reduce pipeline (task2.py) of this repository, as a shallow embedding.

Conventions of the embedding:
- Python strings are modelled as `String` or `List Char` (ASCII texts).
- The filesystem seen by the directory walker is an inductive tree
  `FSEntry`; the walker's unbounded recursion is modelled with an explicit
  recursion-depth fuel so that every definition is executable; theorems
  quantify over all fuels.
- Fallible or stateful behaviour (move success, destination occupancy,
  pre-flight state of `main`) is passed in explicitly as oracles/flags.
-/

set_option maxHeartbeats 1000000

namespace Task2

/-- Characters matched by Python's regex word class `\w` on ASCII text:
letters, digits and the underscore. -/
def isWordChar (c : Char) : Bool := c.isAlphanum || c == '_'

/-- Model of Python's `text.lower()` on ASCII text: character-wise lowering. -/
def lowerStr (t : List Char) : List Char := t.map Char.toLower

/-- Fueled worker for `tokens` below; the fuel only serves to make the
recursion structural, `tokens` always supplies enough of it. -/
def tokensGo : Nat → List Char → List (List Char)
  | _, [] => []
  | 0, _ :: _ => []
  | f + 1, c :: cs =>
    if isWordChar c then
      (c :: cs.takeWhile isWordChar) :: tokensGo f (cs.dropWhile isWordChar)
    else
      tokensGo f cs

/-- Model of `re.findall(r'\b\w+\b', t)` (task2.py line 13): the maximal
runs of word characters of `t`, in order of occurrence. -/
def tokens (l : List Char) : List (List Char) := tokensGo l.length l

/-- Model of `MapReduce.map_function` (task2.py lines 12-14): lowercase the
text, tokenize it, keep the words of length strictly greater than 2 and
pair each with the count 1. -/
def map_function (text : List Char) : List (List Char × Nat) :=
  ((tokens (lowerStr text)).filter (fun w => 2 < w.length)).map (fun w => (w, 1))

/-- Model of `MapReduce.reduce_function` (task2.py lines 16-20): fold the
mapped pairs into a counter, as the final word-count mapping. -/
def reduce_function (mapped_data : List (List Char × Nat)) : List Char → Nat :=
  mapped_data.foldl
    (fun counts p => fun w => if w = p.1 then counts w + p.2 else counts w)
    (fun _ => 0)

/-- Fueled worker for `chunksOf` below; again the fuel only makes the
recursion structural. -/
def chunksGo (csz : Nat) : Nat → List Char → List (List Char)
  | _, [] => []
  | 0, _ :: _ => []
  | f + 1, c :: rest =>
    (c :: rest.take (csz - 1)) :: chunksGo csz f (rest.drop (csz - 1))

/-- Model of the chunk list `[text[i:i + chunk_size] for i in
range(0, len(text), chunk_size)]` of task2.py line 24, for any
`chunk_size` that is at least 1 (which `parallel_map` guarantees). -/
def chunksOf (csz : Nat) (l : List Char) : List (List Char) :=
  chunksGo csz l.length l

/-- Model of `MapReduce.parallel_map` (task2.py lines 22-29): split the
text into `chunk_size`-character chunks, map `map_function` over the
chunks and concatenate the per-chunk results in chunk order (which is what
`executor.map` followed by the flattening comprehension produces). -/
def parallel_map (num_workers : Nat) (text : List Char) : List (List Char × Nat) :=
  let chunk_size := max (text.length / num_workers) 1
  (chunksOf chunk_size text).flatMap map_function

/-- Property of a chunk list: no boundary between two consecutive chunks
falls strictly inside a run of word characters. -/
def noSplitWords : List (List Char) → Bool
  | [] => true
  | [_] => true
  | a :: b :: rest =>
    (!isWordChar (a.getLastD ' ') || !isWordChar (b.headD ' ')) && noSplitWords (b :: rest)

end Task2

namespace Task1

/-- The fixed set of protected system directory names (task1.py lines 23-32). -/
def SYSTEM_DIRS : List String :=
  ["System Volume Information", "$Recycle.Bin", "Config.Msi",
   "Documents and Settings", "Program Files", "Program Files (x86)",
   "Windows", "Recovery"]

/-- A filesystem subtree as seen by the directory walker: a regular file
(with the outcome of the probe-open as a flag) or a directory with its
entries. -/
inductive FSEntry where
  | file (name : String) (readable : Bool)
  | dir (name : String) (entries : List FSEntry)

/-- Model of Python's `name.startswith('.')`: the first character of the
name is a dot. -/
def startsWithDot (name : String) : Bool :=
  match name.data with
  | [] => false
  | c :: _ => c == '.'

/-- Model of `get_all_files` (task1.py lines 41-77), returning the
collected files as paths relative to the scanned root (each path is the
list of directory names descended into, ending with the file name).
The first argument bounds the recursion depth; since the Python function
recurses without an explicit bound, theorems below hold for every fuel.
Per the source: a root whose own name is in `SYSTEM_DIRS` yields nothing;
a file entry is collected exactly when the probe-open succeeds; a
directory entry is descended into unless its name is in `SYSTEM_DIRS` or
starts with a dot. -/
def get_all_files : Nat → FSEntry → List (List String)
  | _, FSEntry.file _ _ => []
  | 0, FSEntry.dir _ _ => []
  | fuel + 1, FSEntry.dir name entries =>
    if name ∈ SYSTEM_DIRS then []
    else
      entries.flatMap (fun e =>
        match e with
        | FSEntry.file n readable => if readable then [[n]] else []
        | FSEntry.dir n sub =>
          if n ∈ SYSTEM_DIRS then []
          else if startsWithDot n then []
          else (get_all_files fuel (FSEntry.dir n sub)).map (fun p => n :: p))

/-- Model of `pathlib.PurePath.suffix` for a file name: the part of the
name from its last dot on, provided that dot is neither the first nor the
last character; the empty list otherwise. -/
def pySuffix (name : List Char) : List Char :=
  match (name.reverse).findIdx? (fun c => c == '.') with
  | none => []
  | some k =>
    let i := name.length - 1 - k
    if 0 < i ∧ i < name.length - 1 then name.drop i else []

/-- The sentinel extension key for names without a suffix. -/
def no_extension : List Char := "no_extension".data

/-- Model of the extension-key derivation
`source.suffix[1:].lower() if source.suffix else 'no_extension'`
(task1.py lines 81 and 114). -/
def extensionKey (name : List Char) : List Char :=
  if pySuffix name = [] then no_extension
  else ((pySuffix name).drop 1).map Char.toLower

/-- String-level wrapper of `extensionKey` for a file name. -/
def extKeyOfName (name : String) : String := String.mk (extensionKey name.data)

/-- Candidate destination file names probed by the collision loop of
`move_file`, in order: index 0 is the original `source.name`, index
`k + 1` is `f"{stem}_{k + 1}{source.suffix}"` (task1.py lines 85-92). -/
def candName (name stem suffix : String) : Nat → String
  | 0 => name
  | k + 1 => stem ++ "_" ++ toString (k + 1) ++ suffix

/-- Model of the `while os.path.exists(destination)` loop of `move_file`
(task1.py lines 87-92). `ex` is the occupancy oracle for the target
directory, `dest` the current candidate, `counter` the Python counter.
The fuel bounds the number of iterations; the theorems below supply
enough fuel for the loop to reach a free name. -/
def resolveLoop (ex : String → Bool) (stem suffix : String) : String → Nat → Nat → String
  | dest, _, 0 => dest
  | dest, counter, fuel + 1 =>
    if ex dest then
      resolveLoop ex stem suffix (stem ++ "_" ++ toString counter ++ suffix) (counter + 1) fuel
    else dest

/-- Collision resolution as performed by `move_file`: start from the
original name with the counter at 1. -/
def resolve_collision (ex : String → Bool) (stem suffix name : String) (fuel : Nat) : String :=
  resolveLoop ex stem suffix name 1 fuel

/-- Model of the per-extension counting loop of `process_files`
(task1.py lines 112-115): fold over the discovered files, incrementing
the count of each file's extension key. -/
def extension_counts (files : List String) : String → Nat :=
  files.foldl
    (fun counts file =>
      fun e => if e = extKeyOfName file then counts e + 1 else counts e)
    (fun _ => 0)

/-- Outcome-level model of one `process_files` run over the discovered
file names. `moveSucceeds` abstracts whether `shutil.move` succeeds for a
given file (task1.py lines 94-100 swallow per-file failures). -/
structure ProcessReport where
  reportedCounts : String → Nat
  movedFiles : List String

/-- Model of `process_files` (task1.py lines 104-139) at the level of its
observable summary: the reported per-extension counts are computed from
the discovered file set up-front (lines 112-115) and logged unchanged at
the end (lines 133-136); the files actually moved are those whose move
succeeded. -/
def process_files (files : List String) (moveSucceeds : String → Bool) : ProcessReport :=
  { reportedCounts := extension_counts files
    movedFiles := files.filter moveSucceeds }

/-- Phase of one relocation task with respect to the admission semaphore
`asyncio.Semaphore(10)` of task1.py line 120. -/
inductive TaskPhase where
  | pending
  | holding
  | done
deriving DecidableEq

/-- Test for the phase in which a task holds a semaphore slot. -/
def isHolding : TaskPhase → Bool
  | TaskPhase.holding => true
  | _ => false

/-- Number of tasks currently holding a semaphore slot. -/
def countHolding (st : List TaskPhase) : Nat :=
  (st.filter isHolding).length

/-- Transition relation of the semaphore discipline of
`move_with_progress` (task1.py lines 122-128): a task may enter its move
only when fewer than 10 tasks are inside `async with semaphore`, and on
completion (successful or failed move alike) it releases its slot. -/
inductive SemStep : List TaskPhase → List TaskPhase → Prop where
  | acquire (st : List TaskPhase) (i : Nat)
      (hi : st[i]? = some TaskPhase.pending)
      (hcap : countHolding st < 10) :
      SemStep st (st.set i TaskPhase.holding)
  | release (st : List TaskPhase) (i : Nat) (success : Bool)
      (hi : st[i]? = some TaskPhase.holding) :
      SemStep st (st.set i TaskPhase.done)

/-- Initial state of a run over `n` relocation tasks: all pending. -/
def initTasks (n : Nat) : List TaskPhase := List.replicate n TaskPhase.pending

/-- States reachable during a `process_files` run over `n` tasks. -/
def SemReachable (n : Nat) (st : List TaskPhase) : Prop :=
  Relation.ReflTransGen SemStep (initTasks n) st

/-- Observable actions of one `main` run (task1.py lines 157-180). -/
inductive Act where
  | logSourceMissing
  | logSameDir
  | logCreateDestError
  | walkFS
  | moveFS
  | logProcessError
  | logInterrupted
  | logFinished
deriving DecidableEq

/-- How the `await process_files(...)` call of task1.py line 174 ends. -/
inductive ProcOutcome where
  | ok
  | interrupted
  | raised
deriving DecidableEq

/-- Pre-flight state and process behaviour of one `main` invocation:
whether the resolved source directory exists, whether source and
destination resolve to the same path, whether creating the destination
root raises, and the actions and outcome of the `process_files` call. -/
structure MainWorld where
  sourceExists : Bool
  sameDir : Bool
  createDestFails : Bool
  procActs : List Act
  procOutcome : ProcOutcome

/-- Model of `main` (task1.py lines 157-180) as the sequence of observable
actions it performs. A missing source or equal source/destination returns
after one error log (lines 163-169), before any directory creation, walk
or move; a failure inside `create_directory(dest_dir)` logs and
propagates, since line 171 sits before the try block; otherwise
`process_files` runs inside try/except/finally, the except arms log an
interrupt or a process failure, and the finally arm always logs the
finished marker (lines 173-180). -/
def mainTrace (w : MainWorld) : List Act :=
  if !w.sourceExists then [Act.logSourceMissing]
  else if w.sameDir then [Act.logSameDir]
  else if w.createDestFails then [Act.logCreateDestError]
  else
    w.procActs ++
    (match w.procOutcome with
     | ProcOutcome.ok => []
     | ProcOutcome.interrupted => [Act.logInterrupted]
     | ProcOutcome.raised => [Act.logProcessError]) ++
    [Act.logFinished]

end Task1

namespace Task1

theorem extension_counts_aux (files : List String) :
    ∀ (acc : String → Nat) (e : String),
      (files.foldl
        (fun counts file =>
          fun x => if x = extKeyOfName file then counts x + 1 else counts x) acc) e
        = acc e + (files.filter (fun f => extKeyOfName f == e)).length := by
  induction files with
  | nil => intro acc e; simp
  | cons f rest ih =>
    intro acc e
    simp only [List.foldl_cons, List.filter_cons]
    rw [ih]
    by_cases h : e = extKeyOfName f
    · subst h
      rw [if_pos rfl, if_pos (beq_self_eq_true (extKeyOfName f))]
      simp only [List.length_cons]
      omega
    · have hb : (extKeyOfName f == e) = false :=
        beq_eq_false_iff_ne.mpr (fun heq => h heq.symm)
      simp [h, hb]

theorem resolveLoop_first_free (ex : String → Bool) (stem suffix name : String) :
    ∀ (m c fuel : Nat),
      (∀ j, j < m → ex (candName name stem suffix (c + j)) = true) →
      ex (candName name stem suffix (c + m)) = false →
      m ≤ fuel →
      resolveLoop ex stem suffix (candName name stem suffix c) (c + 1) fuel
        = candName name stem suffix (c + m) := by
  intro m
  induction m with
  | zero =>
    intro c fuel hocc hfree hle
    cases fuel with
    | zero => simp [resolveLoop]
    | succ f =>
      have hf : ex (candName name stem suffix c) = false := by simpa using hfree
      simp [resolveLoop, hf]
  | succ m ih =>
    intro c fuel hocc hfree hle
    cases fuel with
    | zero => exact absurd hle (by omega)
    | succ f =>
      have h0 : ex (candName name stem suffix c) = true := by
        simpa using hocc 0 (Nat.succ_pos m)
      rw [resolveLoop, if_pos h0]
      have hcand : stem ++ "_" ++ toString (c + 1) ++ suffix
          = candName name stem suffix (c + 1) := rfl
      rw [hcand]
      have hocc' : ∀ j, j < m → ex (candName name stem suffix ((c + 1) + j)) = true := by
        intro j hj
        have := hocc (j + 1) (by omega)
        rwa [show c + (j + 1) = (c + 1) + j by omega] at this
      have hfree' : ex (candName name stem suffix ((c + 1) + m)) = false := by
        rwa [show c + (m + 1) = (c + 1) + m by omega] at hfree
      have := ih (c + 1) f hocc' hfree' (by omega)
      rwa [show (c + 1) + m = c + (m + 1) by omega] at this

theorem resolveLoop_shape (ex : String → Bool) (stem suffix : String) :
    ∀ (fuel : Nat) (dest : String) (c : Nat),
      resolveLoop ex stem suffix dest c fuel = dest ∨
        ∃ k, c ≤ k ∧ resolveLoop ex stem suffix dest c fuel
          = stem ++ "_" ++ toString k ++ suffix := by
  intro fuel
  induction fuel with
  | zero => intro dest c; left; rfl
  | succ f ih =>
    intro dest c
    by_cases h : ex dest = true
    · rw [resolveLoop, if_pos h]
      rcases ih (stem ++ "_" ++ toString c ++ suffix) (c + 1) with heq | ⟨k, hk, heq⟩
      · right; exact ⟨c, Nat.le_refl c, heq⟩
      · right; exact ⟨k, by omega, heq⟩
    · left
      rw [resolveLoop, if_neg h]

theorem countHolding_initTasks (n : Nat) : countHolding (initTasks n) = 0 := by
  induction n with
  | zero => rfl
  | succ k ih =>
    simp only [initTasks, List.replicate_succ, countHolding, List.filter_cons] at *
    rw [show isHolding TaskPhase.pending = false from rfl]
    simpa using ih

theorem countHolding_set_acquire : ∀ (st : List TaskPhase) (i : Nat),
    st[i]? = some TaskPhase.pending →
    countHolding (st.set i TaskPhase.holding) = countHolding st + 1 := by
  intro st
  induction st with
  | nil => intro i h; simp at h
  | cons x rest ih =>
    intro i h
    cases i with
    | zero =>
      simp only [List.getElem?_cons_zero, Option.some.injEq] at h
      subst h
      simp [countHolding, List.filter_cons, isHolding]
    | succ j =>
      simp only [List.getElem?_cons_succ] at h
      have := ih j h
      cases hx : isHolding x <;>
        simp [countHolding, List.filter_cons, hx, List.set] at * <;> omega

theorem countHolding_set_release : ∀ (st : List TaskPhase) (i : Nat),
    st[i]? = some TaskPhase.holding →
    countHolding (st.set i TaskPhase.done) + 1 = countHolding st := by
  intro st
  induction st with
  | nil => intro i h; simp at h
  | cons x rest ih =>
    intro i h
    cases i with
    | zero =>
      simp only [List.getElem?_cons_zero, Option.some.injEq] at h
      subst h
      simp [countHolding, List.filter_cons, isHolding]
    | succ j =>
      simp only [List.getElem?_cons_succ] at h
      have := ih j h
      cases hx : isHolding x <;>
        simp [countHolding, List.filter_cons, hx, List.set] at * <;> omega

end Task1

namespace Task1

/-- C1 (corrected), counterexample: with one discovered file `a.txt` whose
move fails, the final per-extension breakdown still reports one `txt`
file, while the number of successfully moved `txt` files is zero — so the
logged statistics do not count only successfully moved files. -/
theorem stats_count_failed_moves :
    (process_files ["a.txt"] (fun _ => false)).reportedCounts "txt" ≠
      (((process_files ["a.txt"] (fun _ => false)).movedFiles.filter
        (fun f => extKeyOfName f == "txt")).length) := by
  decide

/-- C1 (amended): the per-extension breakdown logged by `process_files` at
the end of a run counts every discovered file by its extension key; it is
computed from the discovered file set up-front and is independent of which
moves succeed. -/
theorem stats_count_all_discovered (files : List String)
    (moveSucceeds : String → Bool) (e : String) :
    (process_files files moveSucceeds).reportedCounts e
      = (files.filter (fun f => extKeyOfName f == e)).length := by
  show extension_counts files e = _
  unfold extension_counts
  rw [extension_counts_aux]
  omega

/-- C1 witness: evaluating the amended statement on a concrete run. -/
theorem stats_count_all_discovered_witness :
    (process_files ["a.txt", "b.TXT", "README"] (fun _ => false)).reportedCounts "txt" = 2 := by
  rw [stats_count_all_discovered ["a.txt", "b.TXT", "README"] (fun _ => false) "txt"]
  decide

/-- C2 (corrected), counterexample: when the source directory does not
exist, `main` returns from the pre-flight check at task1.py line 165,
before the try/finally block, and the terminal finished marker is never
logged. -/
theorem main_missing_source_no_finished_marker :
    Act.logFinished ∉
      mainTrace ⟨false, false, false, [], ProcOutcome.ok⟩ := by
  decide

/-- C2 (amended): the finished marker is logged on every run that passes
both pre-flight checks and whose destination-root creation succeeds,
whatever the outcome of `process_files` (normal completion, interrupt or
any other exception); on a pre-flight abort or a destination-creation
failure `main` exits without the marker. -/
theorem main_finished_after_preflight (w : MainWorld)
    (hs : w.sourceExists = true) (hd : w.sameDir = false)
    (hc : w.createDestFails = false) :
    Act.logFinished ∈ mainTrace w := by
  simp [mainTrace, hs, hd, hc]

/-- C2 witness: a run whose `process_files` call raises still logs the
finished marker. -/
theorem main_finished_after_preflight_witness :
    Act.logFinished ∈
      mainTrace ⟨true, false, false, [Act.walkFS, Act.moveFS], ProcOutcome.raised⟩ :=
  main_finished_after_preflight _ rfl rfl rfl

/-- C4: every path collected by the directory walker descends only through
directories that are neither in the protected set nor hidden (their names
are not in `SYSTEM_DIRS` and do not start with a dot), at any depth; and
when the root's own name is in the protected set the result is empty. -/
theorem walker_prunes_protected_and_hidden :
    (∀ (fuel : Nat) (name : String) (entries : List FSEntry) (p : List String),
      p ∈ get_all_files fuel (FSEntry.dir name entries) →
        p.dropLast.all
          (fun c => !(decide (c ∈ SYSTEM_DIRS)) && !(startsWithDot c)) = true) ∧
    (∀ (fuel : Nat) (name : String) (entries : List FSEntry),
      name ∈ SYSTEM_DIRS → get_all_files fuel (FSEntry.dir name entries) = []) := by
  constructor
  · intro fuel
    induction fuel with
    | zero =>
      intro name entries p hp
      simp [get_all_files] at hp
    | succ f ih =>
      intro name entries p hp
      rw [get_all_files] at hp
      by_cases hname : name ∈ SYSTEM_DIRS
      · rw [if_pos hname] at hp
        simp at hp
      · rw [if_neg hname] at hp
        obtain ⟨e, _, hpe⟩ := List.mem_flatMap.mp hp
        cases e with
        | file n readable =>
          cases readable with
          | false => simp at hpe
          | true =>
            simp only [if_true, List.mem_singleton] at hpe
            subst hpe
            simp
        | dir n sub =>
          dsimp only at hpe
          by_cases h1 : n ∈ SYSTEM_DIRS
          · rw [if_pos h1] at hpe
            simp at hpe
          · rw [if_neg h1] at hpe
            cases h2 : startsWithDot n with
            | true => rw [if_pos h2] at hpe; simp at hpe
            | false =>
              rw [if_neg (by simp [h2])] at hpe
              obtain ⟨q, hq, rfl⟩ := List.mem_map.mp hpe
              have hclean := ih n sub q hq
              cases q with
              | nil => simp
              | cons x xs =>
                rw [List.dropLast_cons_of_ne_nil (by simp), List.all_cons]
                rw [Bool.and_eq_true]
                refine ⟨?_, hclean⟩
                simp [h1, h2]
  · intro fuel name entries h
    cases fuel with
    | zero => simp [get_all_files]
    | succ f => simp [get_all_files, h]

/-- C4 witness: a concrete walk keeps only clean paths, and a protected
root yields the empty result. -/
theorem walker_prunes_protected_and_hidden_witness :
    (["sub", "a.txt"] : List String).dropLast.all
        (fun c => !(decide (c ∈ SYSTEM_DIRS)) && !(startsWithDot c)) = true ∧
      get_all_files 3 (FSEntry.dir "Windows" [FSEntry.file "a.txt" true]) = [] :=
  ⟨walker_prunes_protected_and_hidden.1 5 "src"
      [FSEntry.dir "sub" [FSEntry.file "a.txt" true]] ["sub", "a.txt"] (by decide),
    walker_prunes_protected_and_hidden.2 3 "Windows" [FSEntry.file "a.txt" true]
      (by decide)⟩

/-- C5: the collision loop of `move_file` returns the first candidate of
the sequence `name`, `stem_1<suffix>`, `stem_2<suffix>`, ... at which the
occupancy oracle reports no entry, with the counter starting at 1 and
incrementing by 1 per collision; in particular the returned path has no
occupant. -/
theorem move_file_resolves_first_free (ex : String → Bool)
    (stem suffix name : String) (m fuel : Nat)
    (hocc : ∀ j, j < m → ex (candName name stem suffix j) = true)
    (hfree : ex (candName name stem suffix m) = false)
    (hfuel : m ≤ fuel) :
    resolve_collision ex stem suffix name fuel = candName name stem suffix m ∧
      ex (resolve_collision ex stem suffix name fuel) = false := by
  have h := resolveLoop_first_free ex stem suffix name m 0 fuel
    (by simpa using hocc) (by simpa using hfree) hfuel
  have hz : resolve_collision ex stem suffix name fuel = candName name stem suffix m := by
    simpa [resolve_collision] using h
  exact ⟨hz, by rw [hz]; simpa using hfree⟩

/-- C5 witness: against a directory already containing `a.txt`, the loop
returns the candidate of index 1, namely `a_1.txt`, and that name is free. -/
theorem move_file_resolves_first_free_witness :
    resolve_collision (fun s => s == "a.txt") "a" ".txt" "a.txt" 5
        = candName "a.txt" "a" ".txt" 1 ∧
      (fun s => s == "a.txt")
        (resolve_collision (fun s => s == "a.txt") "a" ".txt" "a.txt" 5) = false :=
  move_file_resolves_first_free (fun s => s == "a.txt") "a" ".txt" "a.txt" 1 5
    (by decide) (by decide) (by decide)

/-- C6: the derived extension key is the lowercased suffix with the
leading dot stripped, or the sentinel when the name has no suffix:
`REPORT.PDF` classifies as `pdf`, `README` as `no_extension`; generally a
dot-free name gets the sentinel, and a name of the form
`base.ext` (base and ext nonempty, ext dot-free) gets lowercased `ext`. -/
theorem extensionKey_classification :
    extensionKey "REPORT.PDF".data = "pdf".data ∧
    extensionKey "README".data = no_extension ∧
    (∀ name : List Char, '.' ∉ name → extensionKey name = no_extension) ∧
    (∀ base ext : List Char, base ≠ [] → ext ≠ [] → '.' ∉ ext →
      extensionKey (base ++ '.' :: ext) = ext.map Char.toLower) := by
  refine ⟨by decide, by decide, ?_, ?_⟩
  · intro name h
    have hfind : (name.reverse).findIdx? (fun c => c == '.') = none := by
      rw [List.findIdx?_eq_none_iff]
      intro x hx
      exact beq_eq_false_iff_ne.mpr (fun heq => h (heq ▸ List.mem_reverse.mp hx))
    simp [extensionKey, pySuffix, hfind]
  · intro base ext hb he hd
    have hrev : (base ++ '.' :: ext).reverse = ext.reverse ++ '.' :: base.reverse := by
      simp [List.reverse_append]
    have hnone : (ext.reverse).findIdx? (fun c => c == '.') = none := by
      rw [List.findIdx?_eq_none_iff]
      intro x hx
      exact beq_eq_false_iff_ne.mpr (fun heq => hd (heq ▸ List.mem_reverse.mp hx))
    have hfind : ((base ++ '.' :: ext).reverse).findIdx? (fun c => c == '.')
        = some ext.length := by
      rw [hrev, List.findIdx?_append, hnone]
      simp [List.findIdx?_cons]
    have hlen : (base ++ '.' :: ext).length = base.length + 1 + ext.length := by
      simp only [List.length_append, List.length_cons]
      omega
    have hi : (base ++ '.' :: ext).length - 1 - ext.length = base.length := by
      omega
    have hbpos : 0 < base.length := List.length_pos.mpr hb
    have hepos : 0 < ext.length := List.length_pos.mpr he
    have hsuf : pySuffix (base ++ '.' :: ext) = '.' :: ext := by
      rw [pySuffix, hfind]
      simp only [hi]
      rw [if_pos ⟨hbpos, by omega⟩]
      exact List.drop_left base ('.' :: ext)
    rw [extensionKey, hsuf]
    simp

/-- C6 witness: a concrete decomposed name evaluated through the general
clause of the classification theorem. -/
theorem extensionKey_classification_witness :
    extensionKey ("data".data ++ '.' :: "BIN".data) = "BIN".data.map Char.toLower :=
  extensionKey_classification.2.2.2 "data".data "BIN".data
    (by decide) (by decide) (by decide)

/-- C7: when the source directory is missing or source and destination
resolve to the same path, `main` performs no move and no walk, and logs
the corresponding fatal pre-flight error. -/
theorem main_preflight_no_work (w : MainWorld)
    (h : w.sourceExists = false ∨ w.sameDir = true) :
    Act.moveFS ∉ mainTrace w ∧ Act.walkFS ∉ mainTrace w ∧
      (Act.logSourceMissing ∈ mainTrace w ∨ Act.logSameDir ∈ mainTrace w) := by
  cases hs : w.sourceExists with
  | false =>
    refine ⟨by simp [mainTrace, hs], by simp [mainTrace, hs], Or.inl (by simp [mainTrace, hs])⟩
  | true =>
    have hd : w.sameDir = true := by
      cases h with
      | inl h' => rw [hs] at h'; exact absurd h' (by simp)
      | inr h' => exact h'
    refine ⟨by simp [mainTrace, hs, hd], by simp [mainTrace, hs, hd],
      Or.inr (by simp [mainTrace, hs, hd])⟩

/-- C7 witness: a same-path invocation, even one whose (never reached)
process phase would have moved files, produces no move and no walk. -/
theorem main_preflight_no_work_witness :
    Act.moveFS ∉ mainTrace ⟨true, true, false, [Act.walkFS, Act.moveFS], ProcOutcome.ok⟩ ∧
      Act.walkFS ∉ mainTrace ⟨true, true, false, [Act.walkFS, Act.moveFS], ProcOutcome.ok⟩ ∧
      (Act.logSourceMissing ∈
          mainTrace ⟨true, true, false, [Act.walkFS, Act.moveFS], ProcOutcome.ok⟩ ∨
        Act.logSameDir ∈
          mainTrace ⟨true, true, false, [Act.walkFS, Act.moveFS], ProcOutcome.ok⟩) :=
  main_preflight_no_work _ (Or.inr rfl)

/-- C8: in every state reachable under the semaphore discipline of
`process_files`, at most 10 relocation tasks are between slot acquisition
and slot release; the transition relation itself enforces that a task
acquires a slot before its move and releases it on completion whether the
move succeeds or fails. -/
theorem semaphore_bounds_in_flight (n : Nat) (st : List TaskPhase)
    (h : SemReachable n st) : countHolding st ≤ 10 := by
  unfold SemReachable at h
  induction h with
  | refl => rw [countHolding_initTasks]; omega
  | tail hsteps hstep ih =>
    cases hstep with
    | acquire i hi hcap =>
      rw [countHolding_set_acquire _ i hi]
      omega
    | release i success hi =>
      have := countHolding_set_release _ i hi
      omega

/-- C8 witness: a state reached by one acquisition step satisfies the
bound. -/
theorem semaphore_bounds_in_flight_witness :
    countHolding [TaskPhase.holding] ≤ 10 :=
  semaphore_bounds_in_flight 1 [TaskPhase.holding]
    (Relation.ReflTransGen.single
      (SemStep.acquire [TaskPhase.pending] 0 (by decide) (by decide)))

/-- C9: a regular file whose name starts with a dot is still collected by
the walker when its directory is scanned — the hidden-name pruning guard
sits only on the directory branch of the entry loop, so file entries are
collected for any name whatsoever. -/
theorem walker_collects_hidden_files (fuel : Nat) (name : String)
    (entries : List FSEntry) (n : String)
    (hname : name ∉ SYSTEM_DIRS) (hmem : FSEntry.file n true ∈ entries) :
    [n] ∈ get_all_files (fuel + 1) (FSEntry.dir name entries) := by
  rw [get_all_files, if_neg hname]
  exact List.mem_flatMap.mpr ⟨FSEntry.file n true, hmem, by simp⟩

/-- C9 witness: a hidden-named regular file directly under the root is in
the collected set. -/
theorem walker_collects_hidden_files_witness :
    [".hidden"] ∈ get_all_files 1 (FSEntry.dir "root" [FSEntry.file ".hidden" true]) :=
  walker_collects_hidden_files 0 "root" [FSEntry.file ".hidden" true] ".hidden"
    (by decide) (List.mem_singleton.mpr rfl)

/-- C10: every candidate the collision loop can return is rebuilt from the
original stem and suffix — it is the original name or has the exact shape
`stem_k<suffix>` for a single counter value `k ≥ 1` — so repeated
collisions never compound suffixes: a directory holding `a.txt` and
`a_1.txt` yields `a_2.txt` (never `a_1_1.txt`), and the suffix keeps its
original character case (`PHOTO.JPG` collides to `PHOTO_1.JPG`). -/
theorem move_file_candidate_shape :
    (∀ (ex : String → Bool) (stem suffix name : String) (fuel : Nat),
      resolve_collision ex stem suffix name fuel = name ∨
        ∃ k, 1 ≤ k ∧ resolve_collision ex stem suffix name fuel
          = stem ++ "_" ++ toString k ++ suffix) ∧
    resolve_collision (fun s => (["a.txt", "a_1.txt"] : List String).contains s)
        "a" ".txt" "a.txt" 5 = "a_2.txt" ∧
    resolve_collision (fun s => s == "PHOTO.JPG") "PHOTO" ".JPG" "PHOTO.JPG" 5
        = "PHOTO_1.JPG" := by
  refine ⟨?_, by decide, by decide⟩
  intro ex stem suffix name fuel
  exact resolveLoop_shape ex stem suffix fuel name 1

end Task1

namespace Task2

theorem tokensGo_eq : ∀ (f g : Nat) (l : List Char),
    l.length ≤ f → l.length ≤ g → tokensGo f l = tokensGo g l := by
  intro f
  induction f with
  | zero =>
    intro g l hf hg
    have hl : l = [] := List.length_eq_zero.mp (Nat.le_zero.mp hf)
    subst hl
    cases g <;> rfl
  | succ f ih =>
    intro g l hf hg
    cases l with
    | nil => cases g <;> rfl
    | cons c cs =>
      cases g with
      | zero => simp at hg
      | succ g' =>
        have hf' : cs.length ≤ f := by simp only [List.length_cons] at hf; omega
        have hg' : cs.length ≤ g' := by simp only [List.length_cons] at hg; omega
        rw [tokensGo, tokensGo]
        by_cases hw : isWordChar c = true
        · rw [if_pos hw, if_pos hw]
          have hdrop : (cs.dropWhile isWordChar).length ≤ cs.length :=
            List.Sublist.length_le (List.dropWhile_sublist _)
          rw [ih g' (cs.dropWhile isWordChar) (le_trans hdrop hf') (le_trans hdrop hg')]
        · rw [if_neg hw, if_neg hw]
          exact ih g' cs hf' hg'

theorem tokens_nil : tokens ([] : List Char) = [] := rfl

theorem tokens_cons (c : Char) (cs : List Char) :
    tokens (c :: cs)
      = if isWordChar c then
          (c :: cs.takeWhile isWordChar) :: tokens (cs.dropWhile isWordChar)
        else tokens cs := by
  show tokensGo (cs.length + 1) (c :: cs) = _
  rw [tokensGo]
  by_cases hw : isWordChar c = true
  · rw [if_pos hw, if_pos hw]
    have hdrop : (cs.dropWhile isWordChar).length ≤ cs.length :=
      List.Sublist.length_le (List.dropWhile_sublist _)
    rw [tokensGo_eq cs.length (cs.dropWhile isWordChar).length (cs.dropWhile isWordChar)
      hdrop (le_refl _)]
    rfl
  · rw [if_neg hw, if_neg hw]
    rfl

theorem getLastD_of_ne_nil : ∀ (l : List Char) (d d' : Char), l ≠ [] →
    l.getLastD d = l.getLastD d' := by
  intro l d d' h
  cases l with
  | nil => exact absurd rfl h
  | cons x xs => rw [List.getLastD_cons, List.getLastD_cons]

theorem getLastD_append_of_ne_nil : ∀ (t s : List Char) (d : Char), s ≠ [] →
    (t ++ s).getLastD d = s.getLastD d := by
  intro t
  induction t with
  | nil => intro s d _; rfl
  | cons x t' ih =>
    intro s d hs
    rw [List.cons_append, List.getLastD_cons, ih s x hs]
    exact getLastD_of_ne_nil s x d hs

theorem getLastD_mem_of_ne_nil : ∀ (l : List Char) (d : Char), l ≠ [] →
    l.getLastD d ∈ l := by
  intro l
  induction l with
  | nil => intro d h; exact absurd rfl h
  | cons x l' ih =>
    intro d _
    rw [List.getLastD_cons]
    cases l' with
    | nil => simp
    | cons y ys => exact List.mem_cons_of_mem x (ih x (by simp))

theorem tokens_append_aux : ∀ (n : Nat) (a b : List Char), a.length ≤ n →
    (isWordChar (b.headD ' ') = false ∨ isWordChar (a.getLastD ' ') = false ∨ b = []) →
    tokens (a ++ b) = tokens a ++ tokens b := by
  intro n
  induction n with
  | zero =>
    intro a b ha _
    have hl : a = [] := List.length_eq_zero.mp (Nat.le_zero.mp ha)
    subst hl
    simp [tokens_nil]
  | succ n ih =>
    intro a b ha hc
    by_cases hbnil : b = []
    · subst hbnil
      simp [tokens_nil]
    cases a with
    | nil => simp [tokens_nil]
    | cons c a2 =>
      have ha2 : a2.length ≤ n := by simp only [List.length_cons] at ha; omega
      rw [List.cons_append, tokens_cons, tokens_cons]
      by_cases hw : isWordChar c = true
      · rw [if_pos hw, if_pos hw]
        by_cases hall : ∀ x ∈ a2, isWordChar x = true
        · have ht2 : a2.takeWhile isWordChar = a2 := List.takeWhile_eq_self_iff.mpr hall
          have hd2 : a2.dropWhile isWordChar = [] := List.dropWhile_eq_nil_iff.mpr hall
          have hlast : isWordChar ((c :: a2).getLastD ' ') = true := by
            rw [List.getLastD_cons]
            cases a2 with
            | nil => exact hw
            | cons y ys =>
              exact hall _ (getLastD_mem_of_ne_nil (y :: ys) c (by simp))
          have hcb : isWordChar (b.headD ' ') = false := by
            rcases hc with h | h | h
            · exact h
            · rw [h] at hlast; exact absurd hlast (by simp)
            · exact absurd h hbnil
          obtain ⟨x, xs, rfl⟩ : ∃ x xs, b = x :: xs := by
            cases b with
            | nil => exact absurd rfl hbnil
            | cons x xs => exact ⟨x, xs, rfl⟩
          rw [List.headD_cons] at hcb
          have htb : (x :: xs).takeWhile isWordChar = [] := by
            rw [List.takeWhile_cons, if_neg (by simp [hcb])]
          have hdb : (x :: xs).dropWhile isWordChar = x :: xs := by
            rw [List.dropWhile_cons, if_neg (by simp [hcb])]
          rw [List.takeWhile_append, if_pos (by rw [ht2]), List.dropWhile_append,
            if_pos (by rw [hd2]; rfl), htb, hdb, ht2]
          rw [hd2, tokens_nil]
          simp
        · have hlen2 : (a2.takeWhile isWordChar).length ≠ a2.length := by
            intro heq
            exact hall (List.takeWhile_eq_self_iff.mp
              ((List.takeWhile_prefix _).eq_of_length heq))
          have hdne : a2.dropWhile isWordChar ≠ [] := by
            intro heq
            exact hall (List.dropWhile_eq_nil_iff.mp heq)
          rw [List.takeWhile_append, if_neg hlen2, List.dropWhile_append,
            if_neg (by simpa [List.isEmpty_iff] using hdne)]
          rw [List.cons_append]
          congr 1
          apply ih
          · exact le_trans (List.Sublist.length_le (List.dropWhile_sublist _)) ha2
          · rcases hc with h | h | h
            · exact Or.inl h
            · refine Or.inr (Or.inl ?_)
              have ha2ne : a2 ≠ [] := by
                intro h2
                exact hdne (by rw [h2]; rfl)
              obtain ⟨t, hts⟩ := List.dropWhile_suffix (l := a2) isWordChar
              rw [List.getLastD_cons] at h
              calc isWordChar ((a2.dropWhile isWordChar).getLastD ' ')
                  = isWordChar (a2.getLastD ' ') := by
                    conv_rhs => rw [← hts]
                    rw [getLastD_append_of_ne_nil t _ ' ' hdne]
                _ = isWordChar (a2.getLastD c) := by
                    rw [getLastD_of_ne_nil a2 ' ' c ha2ne]
                _ = false := h
            · exact absurd h hbnil
      · rw [if_neg hw, if_neg hw]
        apply ih a2 b ha2
        rcases hc with h | h | h
        · exact Or.inl h
        · cases a2 with
          | nil => exact Or.inr (Or.inl (by decide))
          | cons y ys =>
            refine Or.inr (Or.inl ?_)
            rw [List.getLastD_cons] at h
            rw [getLastD_of_ne_nil (y :: ys) ' ' c (by simp)]
            exact h
        · exact absurd h hbnil

theorem tokens_append (a b : List Char)
    (h : isWordChar (b.headD ' ') = false ∨ isWordChar (a.getLastD ' ') = false ∨ b = []) :
    tokens (a ++ b) = tokens a ++ tokens b :=
  tokens_append_aux a.length a b (le_refl _) h

end Task2

namespace Task2

theorem tokens_flatten : ∀ (chunks : List (List Char)),
    (∀ c ∈ chunks, c ≠ []) → noSplitWords chunks = true →
    tokens chunks.flatten = (chunks.map tokens).flatten := by
  intro chunks
  induction chunks with
  | nil => intro _ _; rfl
  | cons a rest ih =>
    intro hne hb
    cases rest with
    | nil => simp
    | cons b rest2 =>
      rw [noSplitWords, Bool.and_eq_true] at hb
      obtain ⟨h1, h2⟩ := hb
      have hbn : b ≠ [] := hne b (by simp)
      rw [List.flatten_cons]
      have hcond : isWordChar ((List.flatten (b :: rest2)).headD ' ') = false ∨
          isWordChar (a.getLastD ' ') = false ∨ List.flatten (b :: rest2) = [] := by
        rw [Bool.or_eq_true, Bool.not_eq_true', Bool.not_eq_true'] at h1
        rcases h1 with h | h
        · exact Or.inr (Or.inl h)
        · left
          obtain ⟨y, ys, rfl⟩ : ∃ y ys, b = y :: ys := by
            cases b with
            | nil => exact absurd rfl hbn
            | cons y ys => exact ⟨y, ys, rfl⟩
          rw [List.flatten_cons, List.cons_append, List.headD_cons]
          rw [List.headD_cons] at h
          exact h
      rw [tokens_append a (List.flatten (b :: rest2)) hcond,
        ih (fun c hc => hne c (List.mem_cons_of_mem a hc)) h2]
      rfl

theorem chunksGo_flatten (csz : Nat) : ∀ (f : Nat) (l : List Char),
    l.length ≤ f → (chunksGo csz f l).flatten = l := by
  intro f
  induction f with
  | zero =>
    intro l h
    have hl : l = [] := List.length_eq_zero.mp (Nat.le_zero.mp h)
    subst hl
    rfl
  | succ f ih =>
    intro l h
    cases l with
    | nil => rfl
    | cons c rest =>
      have hr : (rest.drop (csz - 1)).length ≤ f := by
        simp only [List.length_cons] at h
        rw [List.length_drop]
        omega
      rw [chunksGo, List.flatten_cons, ih _ hr, List.cons_append,
        List.take_append_drop]

theorem chunksGo_map (csz : Nat) (g : Char → Char) : ∀ (f : Nat) (l : List Char),
    l.length ≤ f → chunksGo csz f (l.map g) = (chunksGo csz f l).map (List.map g) := by
  intro f
  induction f with
  | zero =>
    intro l h
    have hl : l = [] := List.length_eq_zero.mp (Nat.le_zero.mp h)
    subst hl
    rfl
  | succ f ih =>
    intro l h
    cases l with
    | nil => rfl
    | cons c rest =>
      have hr : (rest.drop (csz - 1)).length ≤ f := by
        simp only [List.length_cons] at h
        rw [List.length_drop]
        omega
      rw [List.map_cons, chunksGo, chunksGo, List.map_cons, List.map_cons,
        ← List.map_take, ← List.map_drop, ih _ hr]

theorem chunksGo_ne_nil (csz : Nat) : ∀ (f : Nat) (l : List Char) (c : List Char),
    c ∈ chunksGo csz f l → c ≠ [] := by
  intro f
  induction f with
  | zero =>
    intro l c hc
    cases l <;> simp [chunksGo] at hc
  | succ f ih =>
    intro l c hc
    cases l with
    | nil => simp [chunksGo] at hc
    | cons x rest =>
      rw [chunksGo, List.mem_cons] at hc
      rcases hc with rfl | hc
      · simp
      · exact ih _ c hc

theorem chunksOf_flatten (csz : Nat) (l : List Char) : (chunksOf csz l).flatten = l :=
  chunksGo_flatten csz l.length l (le_refl _)

theorem chunksOf_map (csz : Nat) (g : Char → Char) (l : List Char) :
    chunksOf csz (l.map g) = (chunksOf csz l).map (List.map g) := by
  show chunksGo csz (l.map g).length (l.map g) = _
  rw [List.length_map]
  exact chunksGo_map csz g l.length l (le_refl _)

theorem chunksOf_ne_nil (csz : Nat) (l : List Char) (c : List Char)
    (hc : c ∈ chunksOf csz l) : c ≠ [] :=
  chunksGo_ne_nil csz l.length l c hc

theorem filterFlatten (p : List Char → Bool) : ∀ (M : List (List (List Char))),
    (M.map (List.filter p)).flatten = M.flatten.filter p := by
  intro M
  induction M with
  | nil => rfl
  | cons x rest ih =>
    rw [List.map_cons, List.flatten_cons, List.flatten_cons, List.filter_append, ih]

theorem reduce_function_count_aux : ∀ (L : List (List Char)) (acc : List Char → Nat)
    (w : List Char),
    ((L.map (fun t => (t, 1))).foldl
      (fun counts p => fun x => if x = p.1 then counts x + p.2 else counts x) acc) w
      = acc w + L.count w := by
  intro L
  induction L with
  | nil => intro acc w; simp
  | cons t rest ih =>
    intro acc w
    rw [List.map_cons, List.foldl_cons, ih, List.count_cons]
    by_cases hw : w = t
    · subst hw
      rw [if_pos rfl, if_pos (beq_self_eq_true w)]
      omega
    · have hbe : (t == w) = false := beq_eq_false_iff_ne.mpr (fun heq => hw heq.symm)
      rw [if_neg hw, if_neg (by simp [hbe])]
      omega

theorem reduce_function_count (L : List (List Char)) (w : List Char) :
    reduce_function (L.map (fun t => (t, 1))) w = L.count w := by
  show (L.map (fun t => (t, 1))).foldl _ (fun _ => 0) w = _
  rw [reduce_function_count_aux]
  omega

/-- C3 (corrected), counterexample: on the text `abcdefgh` with the
program's 4 workers, the chunker cuts the single 8-letter word into
2-character chunks, so the pipeline's count of the word is 0 while the
whole text contains it once — the pipeline does not return the whole-text
word frequencies. -/
theorem mapreduce_splits_words_at_chunk_boundaries :
    reduce_function (parallel_map 4 "abcdefgh".data) "abcdefgh".data ≠
      ((tokens (lowerStr "abcdefgh".data)).filter (fun t => 2 < t.length)).count
        "abcdefgh".data := by
  decide

/-- C3 (amended): whenever no chunk boundary of the lowercased text falls
strictly inside a run of word characters (in particular always when a
single chunk covers the text), the pipeline of `parallel_map` followed by
`reduce_function` returns exactly the whole-text word frequencies: each
word of length greater than 2 is counted as often as it occurs among the
word-boundary tokens of the lowercased whole text, and only such words
get a nonzero count. -/
theorem mapreduce_counts_whole_text (num_workers : Nat) (text : List Char)
    (_hnw : 0 < num_workers)
    (hb : noSplitWords
      (chunksOf (max (text.length / num_workers) 1) (lowerStr text)) = true) :
    reduce_function (parallel_map num_workers text)
      = fun w => ((tokens (lowerStr text)).filter (fun t => 2 < t.length)).count w := by
  have hchunks : parallel_map num_workers text
      = ((tokens (lowerStr text)).filter (fun t => 2 < t.length)).map
          (fun w => (w, 1)) := by
    show (chunksOf (max (text.length / num_workers) 1) text).flatMap map_function = _
    rw [List.flatMap_def]
    have hlow : (chunksOf (max (text.length / num_workers) 1) text).map lowerStr
        = chunksOf (max (text.length / num_workers) 1) (lowerStr text) := by
      rw [show lowerStr text = text.map Char.toLower from rfl,
        chunksOf_map]
      rfl
    have hmapfn : (chunksOf (max (text.length / num_workers) 1) text).map map_function
        = (chunksOf (max (text.length / num_workers) 1) (lowerStr text)).map
            (fun lc => ((tokens lc).filter (fun t => 2 < t.length)).map
              (fun w => (w, 1))) := by
      rw [← hlow, List.map_map]
      rfl
    rw [hmapfn]
    have hstep1 : (chunksOf (max (text.length / num_workers) 1) (lowerStr text)).map
          (fun lc => ((tokens lc).filter (fun t => 2 < t.length)).map
            (fun w => (w, 1)))
        = (((chunksOf (max (text.length / num_workers) 1) (lowerStr text)).map
            (fun lc => (tokens lc).filter (fun t => 2 < t.length))).map
              (List.map (fun w => (w, 1)))) := by
      rw [List.map_map]
      rfl
    rw [hstep1, ← List.map_flatten]
    have hstep2 : ((chunksOf (max (text.length / num_workers) 1) (lowerStr text)).map
          (fun lc => (tokens lc).filter (fun t => 2 < t.length)))
        = (((chunksOf (max (text.length / num_workers) 1) (lowerStr text)).map
            tokens).map (List.filter (fun t => 2 < t.length))) := by
      rw [List.map_map]
      rfl
    rw [hstep2, filterFlatten, ← tokens_flatten _
      (fun c hc => chunksOf_ne_nil _ _ c hc) hb, chunksOf_flatten]
  rw [hchunks]
  funext w
  exact reduce_function_count _ w

/-- C3 witness: a two-chunk text whose boundary falls between words
evaluates through the amended statement. -/
theorem mapreduce_counts_whole_text_witness :
    reduce_function (parallel_map 2 "abc  hello".data)
      = fun w => ((tokens (lowerStr "abc  hello".data)).filter
          (fun t => 2 < t.length)).count w :=
  mapreduce_counts_whole_text 2 "abc  hello".data (by decide) (by decide)

end Task2
